import Mathlib

/-!
A shallow embedding of the Ruby C extension `ext/mongory_ext/mongory_ext.c`
of mongory-rb (the Foreign Value Bridge between the Ruby heap and the
mongory-core matching engine), together with theorems settling the
specification claims about it.

Host (Ruby) values are modelled as trees annotated with heap object ids, so
that object identity and GC reachability can be stated.  The mongory-core
arena pool is not part of the wrapper source file; it is modelled from the
spec where noted.  Ruby C API semantics (`rb_raise` does not return,
`rb_hash_lookup2` compares keys with `eql?`) are embedded directly.
-/

set_option maxHeartbeats 1000000

namespace MongoryExt

/-- A Ruby (host) value.  Heap-allocated objects (strings, arrays, hashes,
regexps, and opaque "other" objects) carry a heap object id, so that object
identity and garbage-collector reachability are expressible.  Immediates
(nil, booleans, fixnums) and interned symbols carry no id.  (`T_FLOAT` is
omitted: no claim involves floating point.) -/
inductive RubyValue where
  | vnil
  | vbool (b : Bool)
  | vint (n : Int)
  | vstr (id : Nat) (s : String)
  | vsym (s : String)
  | varray (id : Nat) (elems : List RubyValue)
  | vhash (id : Nat) (pairs : List (RubyValue × RubyValue))
  | vregex (id : Nat) (src : String)
  | vother (id : Nat) (tag : String)
deriving Repr

mutual

/-- All heap object ids occurring in a Ruby value's object graph.  Marking a
value with `rb_gc_mark` keeps exactly these objects alive (the GC traverses
the references of a marked object transitively). -/
def RubyValue.ids : RubyValue → List Nat
  | .vnil | .vbool _ | .vint _ | .vsym _ => []
  | .vstr i _ => [i]
  | .vregex i _ => [i]
  | .vother i _ => [i]
  | .varray i es => i :: idsList es
  | .vhash i ps => i :: idsPairs ps

/-- ids of a list of values -/
def idsList : List RubyValue → List Nat
  | [] => []
  | v :: vs => v.ids ++ idsList vs

/-- ids of a list of key/value pairs -/
def idsPairs : List (RubyValue × RubyValue) → List Nat
  | [] => []
  | (k, v) :: ps => k.ids ++ v.ids ++ idsPairs ps

end

/-- The heap object id of the value itself (none for immediates and interned
symbols, which the GC never collects). -/
def RubyValue.selfId : RubyValue → Option Nat
  | .vnil | .vbool _ | .vint _ | .vsym _ => none
  | .vstr i _ => some i
  | .vregex i _ => some i
  | .vother i _ => some i
  | .varray i _ => some i
  | .vhash i _ => some i

/-- Ruby `eql?` as used by `Hash` lookup (`rb_hash_lookup2`): strings compare
by content, symbols by name, immediates by value; other heap objects are
compared by identity here (composite hash keys are not exercised by any
claim). -/
def rubyEql : RubyValue → RubyValue → Bool
  | .vnil, .vnil => true
  | .vbool a, .vbool b => a == b
  | .vint a, .vint b => a == b
  | .vstr _ a, .vstr _ b => a == b
  | .vsym a, .vsym b => a == b
  | .varray i _, .varray j _ => i == j
  | .vhash i _, .vhash j _ => i == j
  | .vregex i _, .vregex j _ => i == j
  | .vother i _, .vother j _ => i == j
  | _, _ => false

/-- `rb_hash_lookup2(hash, key, Qundef)` with the miss sentinel modelled as
`none`: first pair whose key is `eql?` to the probe key. -/
def rb_hash_lookup2 : List (RubyValue × RubyValue) → RubyValue → Option RubyValue
  | [], _ => none
  | (k, v) :: rest, key => if rubyEql k key then some v else rb_hash_lookup2 rest key

/-- `SYMBOL_P(key)` -/
def RubyValue.isSymbol : RubyValue → Bool
  | .vsym _ => true
  | _ => false

/-- The C-string form of a hash key as computed by
`hash_foreach_deep_convert_cb` (`rb_id2name` for symbols, `StringValueCStr`
for strings).  A key of any other type makes `StringValueCStr` raise a host
`TypeError`; that path is modelled as `none`. -/
def keyStrOf : RubyValue → Option String
  | .vsym s => some s
  | .vstr _ s => some s
  | _ => none

/-- A native `mongory_value`.  Each constructor mirrors one value shape the
wrapper builds, and carries the `origin` back-reference to the host object
it was produced from (`NULL` modelled as `none`).
* `mnull`/`mbool`/`mint`/`mstr`: primitives copied into the arena
  (`mongory_value_wrap_n/b/i/s`).
* `mdeepArray`/`mdeepTable`: eagerly materialized composites built by deep
  conversion (`mongory_array_new`/`mongory_table_new` plus `wrap_a`/`wrap_t`).
* `mlazyArray`/`mlazyTable`: lazy views (`rb_mongory_array_wrap` /
  `rb_mongory_table_wrap`) storing the host composite handle.
* `mregex`: `data.regex` holds a host handle (possibly `NULL`).
* `mu`: opaque pointer payload (`mongory_value_wrap_u`). -/
inductive MValue where
  | mnull (origin : Option RubyValue)
  | mbool (b : Bool) (origin : Option RubyValue)
  | mint (n : Int) (origin : Option RubyValue)
  | mstr (s : String) (origin : Option RubyValue)
  | mdeepArray (elems : List MValue) (origin : Option RubyValue)
  | mdeepTable (pairs : List (String × MValue)) (origin : Option RubyValue)
  | mlazyArray (rbArray : RubyValue) (origin : Option RubyValue)
  | mlazyTable (rbHash : RubyValue) (origin : Option RubyValue)
  | mregex (payload : Option RubyValue) (origin : Option RubyValue)
  | mu (payload : Option RubyValue) (origin : Option RubyValue)
deriving Repr

/-- `value->origin` -/
def MValue.origin : MValue → Option RubyValue
  | .mnull o | .mbool _ o | .mint _ o | .mstr _ o | .mdeepArray _ o
  | .mdeepTable _ o | .mlazyArray _ o | .mlazyTable _ o | .mregex _ o
  | .mu _ o => o

/-- `value->origin = x` (the C code assigns `origin` after construction). -/
def MValue.setOrigin : MValue → Option RubyValue → MValue
  | .mnull _, o => .mnull o
  | .mbool b _, o => .mbool b o
  | .mint n _, o => .mint n o
  | .mstr s _, o => .mstr s o
  | .mdeepArray es _, o => .mdeepArray es o
  | .mdeepTable ps _, o => .mdeepTable ps o
  | .mlazyArray a _, o => .mlazyArray a o
  | .mlazyTable h _, o => .mlazyTable h o
  | .mregex p _, o => .mregex p o
  | .mu p _, o => .mu p o

/-- `value->type == MONGORY_TYPE_UNSUPPORTED` (a `wrap_u` opaque value). -/
def MValue.isU : MValue → Bool
  | .mu _ _ => true
  | _ => false

/-- Modelled from the spec: the Arena Pool of mongory-core
(`mongory_memory_pool`), whose implementation is not under `src/` (the
wrapper only calls it).  Spec 4.1: bump allocator with a monotonically
growing offset, a single pending error slot which an allocation failure
sets without raising, `reset` rewinding the offset, and `free` making the
pool unusable.  `resets` counts `reset` calls so that "the pool was reset"
is observable; `capacity = none` means allocation never fails. -/
structure PoolState where
  used : Nat
  capacity : Option Nat
  error : Option String
  resets : Nat
  freed : Bool
deriving Repr, DecidableEq

/-- A fresh pool (`mongory_memory_pool_new`), with the given capacity. -/
def PoolState.fresh (capacity : Option Nat) : PoolState :=
  { used := 0, capacity := capacity, error := none, resets := 0, freed := false }

/-- Modelled from the spec: `alloc` bumps the offset; on failure (freed pool
or exhausted capacity) it sets the pool's single error slot and does not
raise. -/
def PoolState.alloc (p : PoolState) (size : Nat) : PoolState :=
  if p.freed then { p with error := some "pool is freed" }
  else
    match p.capacity with
    | none => { p with used := p.used + size }
    | some cap =>
      if p.used + size ≤ cap then { p with used := p.used + size }
      else { p with error := some "allocation failed" }

/-- Modelled from the spec: `reset` rewinds the offset without releasing
backing memory. -/
def PoolState.reset (p : PoolState) : PoolState :=
  { p with used := 0, resets := p.resets + 1 }

/-- Modelled from the spec: `free` releases the memory; the pool is unusable
afterward. -/
def PoolState.free (p : PoolState) : PoolState :=
  { p with freed := true }

/-- Which pool an allocation is served from: the matcher's long-lived pool
(`wrapper->pool`) or the per-match scratch pool (`wrapper->scratch_pool`). -/
inductive PoolId where
  | main
  | scratch
deriving Repr, DecidableEq

/-- The mutable bridge state threaded through the wrapper's helper functions:
the two pools, the two key interning caches (`string_map`, `symbol_map`,
assoc lists from raw key bytes to `wrap_u` store values whose `origin` is
the cached host handle), the Root Retention List (`mark_list`), and a supply
of fresh host heap ids for objects the bridge allocates on the Ruby heap. -/
structure SState where
  pool : PoolState
  scratch : PoolState
  stringMap : List (String × MValue)
  symbolMap : List (String × MValue)
  markList : List MValue
  nextId : Nat
deriving Repr

/-- Allocate one unit from the selected pool. -/
def SState.alloc (s : SState) (pid : PoolId) : SState :=
  match pid with
  | .main => { s with pool := s.pool.alloc 1 }
  | .scratch => { s with scratch := s.scratch.alloc 1 }

/-- `mongory_table` get on the model of a native table (assoc list). -/
def assocGet : List (String × MValue) → String → Option MValue
  | [], _ => none
  | (k, v) :: rest, key => if k = key then some v else assocGet rest key

/-- `mongory_table` set (upsert) on the model of a native table. -/
def tableSet : List (String × MValue) → String → MValue → List (String × MValue)
  | [], key, v => [(key, v)]
  | (k, w) :: rest, key, v =>
    if k = key then (key, v) :: rest else (k, w) :: tableSet rest key v

section Conversion

-- The process-wide data converter (`Mongory.data_converter`, reached through
-- `inMongoryDataConverter.convert`): a host hook rewriting exotic host types
-- into convertible shapes.  It is host Ruby code, so it is a parameter of the
-- embedding.
variable (dconv : RubyValue → RubyValue)

/-- `rb_to_mongory_value_primitive`: wrap a primitive Ruby value
(`mongory_value_wrap_n/b/i/s/regex`, one arena allocation); `NULL` (modelled
as `none`) for arrays, hashes and unsupported types.  Symbols wrap their name
as a native string; a regexp's host handle is stored in `data.regex`.  The
`origin` field is set by the callers, not here. -/
def rb_to_mongory_value_primitive (s : SState) (pid : PoolId) (v : RubyValue) :
    Option MValue × SState :=
  match v with
  | .vnil => (some (.mnull none), s.alloc pid)
  | .vbool b => (some (.mbool b none), s.alloc pid)
  | .vint n => (some (.mint n none), s.alloc pid)
  | .vstr _ str => (some (.mstr str none), s.alloc pid)
  | .vsym str => (some (.mstr str none), s.alloc pid)
  | .vregex _ _ => (some (.mregex (some v) none), s.alloc pid)
  | _ => (none, s)

/-- `rb_mongory_table_wrap`: wrap a Ruby hash as a lazy native table view
storing the host handle (`MG_ALLOC_PTR` of the wrapper struct plus
`mongory_value_wrap_t`: two arena allocations); `origin` is the hash. -/
def rb_mongory_table_wrap (s : SState) (pid : PoolId) (h : RubyValue) : MValue × SState :=
  (.mlazyTable h (some h), (s.alloc pid).alloc pid)

/-- `rb_mongory_array_wrap`: wrap a Ruby array as a lazy native array view
storing the host handle; `origin` is the array. -/
def rb_mongory_array_wrap (s : SState) (pid : PoolId) (a : RubyValue) : MValue × SState :=
  (.mlazyArray a (some a), (s.alloc pid).alloc pid)

/-- The switch body shared by both passes of `rb_to_mongory_value_shallow_rec`:
primitives copied (`origin` set to the value), composites become lazy views,
and the default branch is the continuation `dflt` (which receives the state
unchanged, since no allocation happened on the way there). -/
def shallowCore (s : SState) (pid : PoolId) (v : RubyValue)
    (dflt : SState → MValue × SState) : MValue × SState :=
  match rb_to_mongory_value_primitive s pid v with
  | (some mg, s1) => (mg.setOrigin (some v), s1)
  | (none, _) =>
    match v with
    | .varray _ _ => rb_mongory_array_wrap s pid v
    | .vhash _ _ => rb_mongory_table_wrap s pid v
    | _ => dflt s

/-- `rb_to_mongory_value_shallow_rec`: primitives copied, composites become
lazy views, anything else is offered once to the data converter
(`converted = false`) and, on the second visit (`converted = true`), becomes
an opaque `wrap_u` value carrying the host handle.  The C function recurses
on itself with `converted = true`; since that second pass cannot recurse
again, it is inlined here as the nested `shallowCore`.  Note that in the
converter branch the C code `return`s the recursive result directly, so the
result's `origin` is the converted value, not the original. -/
def rb_to_mongory_value_shallow_rec (s : SState) (pid : PoolId) (v : RubyValue)
    (converted : Bool) : MValue × SState :=
  match converted with
  | true => shallowCore s pid v (fun s1 => (.mu (some v) (some v), s1.alloc pid))
  | false =>
    shallowCore s pid v (fun s1 =>
      shallowCore s1 pid (dconv v)
        (fun s2 => (.mu (some (dconv v)) (some (dconv v)), s2.alloc pid)))

/-- `rb_to_mongory_value_shallow` -/
def rb_to_mongory_value_shallow (s : SState) (pid : PoolId) (v : RubyValue) : MValue × SState :=
  rb_to_mongory_value_shallow_rec dconv s pid v false

/-- The loop of the `T_ARRAY` branch of deep conversion, parameterized by the
per-element converter `f` (the recursive `rb_to_mongory_value_deep` call):
convert each element in order and push it onto the native array. -/
def deepConvertList (f : SState → RubyValue → Option (MValue × SState)) :
    SState → List RubyValue → Option (List MValue × SState)
  | s, [] => some ([], s)
  | s, v :: vs =>
    match f s v with
    | none => none
    | some (mv, s1) =>
      match deepConvertList f s1 vs with
      | none => none
      | some (ms, s2) => some (mv :: ms, s2)

/-- `hash_foreach_deep_convert_cb`, iterated over the hash's pairs,
parameterized by the per-value converter `f`: for each pair, compute the
key's C-string form (host `TypeError` for other key types, modelled as
`none`), record a `wrap_u` store value whose `origin` is the original host
key object into the owner's symbol or string map, deep-convert the value,
and set it into the native table being built (`acc`). -/
def deepConvertPairs (f : SState → RubyValue → Option (MValue × SState)) (pid : PoolId) :
    SState → List (RubyValue × RubyValue) → List (String × MValue) →
    Option (List (String × MValue) × SState)
  | s, [], acc => some (acc, s)
  | s, (k, val) :: rest, acc =>
    match keyStrOf k with
    | none => none
    | some keyStr =>
      let store : MValue := .mu none (some k)
      let s1 := s.alloc pid
      let s2 :=
        if k.isSymbol then { s1 with symbolMap := tableSet s1.symbolMap keyStr store }
        else { s1 with stringMap := tableSet s1.stringMap keyStr store }
      match f s2 val with
      | none => none
      | some (cval, s3) => deepConvertPairs f pid s3 rest (tableSet acc keyStr cval)

/-- `rb_to_mongory_value_deep_rec`: like the shallow version, but arrays and
hashes are fully recursed into fresh arena-owned structures, and hash keys
are recorded in the owner's key maps (`hash_foreach_deep_convert_cb`).  In
the converter branch the result's `origin` is overwritten with the original
value (unlike the shallow version).  `fuel` bounds the C call stack: the
converter can be re-invoked on every nesting level, so the C recursion need
not terminate; `none` models a diverging (or host-raising) conversion. -/
def rb_to_mongory_value_deep_rec : Nat → SState → PoolId → RubyValue → Bool →
    Option (MValue × SState)
  | 0 => fun _ _ _ _ => none
  | fuel + 1 => fun s pid v converted =>
    match rb_to_mongory_value_primitive s pid v with
    | (some mg, s1) => some (mg.setOrigin (some v), s1)
    | (none, _) =>
      match v with
      | .varray _ elems =>
        -- mongory_array_new, then push each deep-converted element, then wrap_a
        match deepConvertList
            (fun s v => rb_to_mongory_value_deep_rec fuel s pid v false)
            (s.alloc pid) elems with
        | none => none
        | some (ms, s2) => some (.mdeepArray ms (some v), s2.alloc pid)
      | .vhash _ pairs =>
        -- mongory_table_new, then rb_hash_foreach with the convert callback, then wrap_t
        match deepConvertPairs
            (fun s v => rb_to_mongory_value_deep_rec fuel s pid v false)
            pid (s.alloc pid) pairs [] with
        | none => none
        | some (tbl, s2) => some (.mdeepTable tbl (some v), s2.alloc pid)
      | _ =>
        match converted with
        | true => some (.mu (some v) (some v), s.alloc pid)
        | false =>
          match rb_to_mongory_value_deep_rec fuel s pid (dconv v) true with
          | none => none
          | some (mg, s1) => some (mg.setOrigin (some v), s1)

/-- `rb_to_mongory_value_deep` -/
def rb_to_mongory_value_deep (fuel : Nat) (s : SState) (pid : PoolId) (v : RubyValue) :
    Option (MValue × SState) :=
  rb_to_mongory_value_deep_rec dconv fuel s pid v false

/-- `cache_fetch_string`: on a hit (a store with a non-null `origin` under the
raw key bytes in `string_map`) return the cached host handle; on a miss,
allocate a fresh host string (`rb_utf8_str_new_cstr`), record a `wrap_u`
store for it (allocated from the owner's long-lived pool), and append the
store to the Root Retention List.  (The `!owner` fallback in the C code is
unreachable through matcher-owned tables and is not modelled.) -/
def cache_fetch_string (s : SState) (key : String) : RubyValue × SState :=
  let cached : Option RubyValue :=
    match assocGet s.stringMap key with
    | some store => store.origin
    | none => none
  match cached with
  | some v => (v, s)
  | none =>
    let str : RubyValue := .vstr s.nextId key
    let store : MValue := .mu none (some str)
    let s1 := { s with nextId := s.nextId + 1 }
    let s2 := s1.alloc .main
    let s3 := { s2 with stringMap := tableSet s2.stringMap key store,
                        markList := s2.markList ++ [store] }
    (str, s3)

/-- `cache_fetch_symbol`: the symbol-flavor twin of `cache_fetch_string`
(`char_key_to_symbol` interns the key; symbols are identity-free here). -/
def cache_fetch_symbol (s : SState) (key : String) : RubyValue × SState :=
  let cached : Option RubyValue :=
    match assocGet s.symbolMap key with
    | some store => store.origin
    | none => none
  match cached with
  | some v => (v, s)
  | none =>
    let sym : RubyValue := .vsym key
    let store : MValue := .mu none (some sym)
    let s1 := s.alloc .main
    let s2 := { s1 with symbolMap := tableSet s1.symbolMap key store,
                        markList := s1.markList ++ [store] }
    (sym, s2)

/-- `rb_mongory_table_get`: resolve a raw-bytes key against the wrapped host
hash, probing the plain-string flavor first (`rb_hash_lookup2` with the
cached string) and falling back to the symbol flavor; a hit is
shallow-converted into the view's pool, a double miss returns `NULL`
(modelled as `none`). -/
def rb_mongory_table_get (s : SState) (pid : PoolId)
    (h : List (RubyValue × RubyValue)) (key : String) : Option MValue × SState :=
  let p1 := cache_fetch_string s key
  match rb_hash_lookup2 h p1.1 with
  | some rv =>
    let p := rb_to_mongory_value_shallow dconv p1.2 pid rv
    (some p.1, p.2)
  | none =>
    let p2 := cache_fetch_symbol p1.2 key
    match rb_hash_lookup2 h p2.1 with
    | some rv =>
      let p := rb_to_mongory_value_shallow dconv p2.2 pid rv
      (some p.1, p.2)
    | none => (none, p2.2)

end Conversion

/-- `rb_mongory_regex_match_adapter`, parameterized by the host's regex
semantics `rmatch src str` (`Regexp.new(src).match?(str)`).  Returns the
match result, the pattern value after the call (the C code caches the
compiled regex back onto the pattern in place via `memcpy`), whether a
compilation happened on this call, and the updated state (compiling
allocates a fresh host regex and a temporary arena value).  `none` models a
host exception (a `rb_funcall` on a handle of the wrong shape). -/
def rb_mongory_regex_match_adapter (rmatch : String → String → Bool)
    (s : SState) (pid : PoolId) (pattern value : MValue) :
    Option (Bool × MValue × Bool × SState) :=
  match value with
  | .mstr _ valueOrigin =>
    match pattern with
    | .mregex (some re) _ =>
      -- pattern->type == MONGORY_TYPE_REGEX && pattern->data.regex
      match re, valueOrigin with
      | .vregex _ src, some (.vstr _ str) => some (rmatch src str, pattern, false, s)
      | _, _ => none
    | .mregex none o => some (false, .mregex none o, false, s)
    | .mstr _ po =>
      -- Regexp.new(pattern->origin); wrap_regex into the pool; memcpy over
      -- the pattern; pattern->origin = the fresh regex
      match po with
      | some (.vstr _ src) =>
        let re : RubyValue := .vregex s.nextId src
        let s1 := ({ s with nextId := s.nextId + 1 } : SState).alloc pid
        let pattern' : MValue := .mregex (some re) (some re)
        match valueOrigin with
        | some (.vstr _ str) => some (rmatch src str, pattern', true, s1)
        | _ => none
      | _ => none
    | p => some (false, p, false, s)
  | _ => some (false, pattern, false, s)

/-- `rb_mongory_error_handling`: if the pool's single error slot is set,
`rb_raise` a host exception.  `rb_raise` does not return (it unwinds to the
enclosing Ruby protect frame), so the statements that follow it in the C
source (`pool->error = NULL; return true;`) are unreachable: the slot is
never cleared and the function never returns `true`.  The `.error` case
carries the message and the pool state at the raise (error slot still set);
`.ok` is the `return false` path. -/
def rb_mongory_error_handling (p : PoolState) (msg : String) :
    Except (String × PoolState) PoolState :=
  match p.error with
  | some e => .error (msg ++ ": " ++ e, p)
  | none => .ok p

/-- The `rb_mongory_matcher_t` wrapper after a successful `create`:
the deep-converted condition, the context object, the optional trace pool,
and the bridge state (pools, key caches, mark list). -/
structure Wrapper where
  condition : MValue
  ctx : RubyValue
  tracePool : Option PoolState
  st : SState
deriving Repr

section Facade

variable (dconv : RubyValue → RubyValue)

/-- `rb_mongory_matcher_parse_argv`: pick the context (the `context:` keyword
argument, or a fresh `Mongory::Utils::Context` host object), apply the
condition converter hook once to the raw condition, deep-convert the result
into the long-lived pool, push the converted condition onto the Root
Retention List, and store and push a `wrap_u` value for the context.
`cconv` is the host condition converter (`Mongory.condition_converter`).
`none` models a diverging conversion or a host exception inside it. -/
def rb_mongory_matcher_parse_argv (cconv : RubyValue → RubyValue) (fuel : Nat)
    (s : SState) (cond : RubyValue) (ctxArg : Option RubyValue) :
    Option (MValue × RubyValue × SState) :=
  let p0 :=
    match ctxArg with
    | some c => (c, s)
    | none => (RubyValue.vother s.nextId "Mongory::Utils::Context",
               { s with nextId := s.nextId + 1 })
  let converted := cconv cond
  match rb_to_mongory_value_deep dconv fuel p0.2 .main converted with
  | none => none
  | some (cval, s1) =>
    let s2 := { s1 with markList := s1.markList ++ [cval] }
    let storeCtx : MValue := .mu (some p0.1) (some p0.1)
    let s3 := s2.alloc .main
    let s4 := { s3 with markList := s3.markList ++ [storeCtx] }
    some (cval, p0.1, s4)

/-- Result of `Mongory::CMatcher.new`.  `raised` records whether the
long-lived pool and the scratch pool were freed before the exception
escaped.  `stuck` is a model artifact (conversion out of fuel, or a host
exception from inside the conversion callbacks). -/
inductive CreateResult where
  | ok (w : Wrapper)
  | raised (msg : String) (poolFreed : Bool) (scratchFreed : Bool)
  | stuck
deriving Repr

/-- `rb_mongory_matcher_new`: allocate the two pools and the empty caches and
mark list, parse the arguments (deep-converting the condition), build the
external evaluator (`mongory_matcher_new`, modelled by `builder`, which on
failure writes into the long-lived pool's error slot), then check that slot.
If it is set, `rb_mongory_error_handling` raises; `rb_raise` does not
return, so the teardown block that follows in the C source
(`pool->free; scratch_pool->free; xfree(wrapper); return Qnil;`) is
unreachable and the pools are not freed.  `firstFreshId` is the first unused
host heap id. -/
def rb_mongory_matcher_new (cconv : RubyValue → RubyValue) (fuel : Nat)
    (capMain capScratch : Option Nat) (builder : MValue → Option String)
    (firstFreshId : Nat) (cond : RubyValue) (ctxArg : Option RubyValue) : CreateResult :=
  let s0 : SState :=
    { pool := PoolState.fresh capMain, scratch := PoolState.fresh capScratch,
      stringMap := [], symbolMap := [], markList := [], nextId := firstFreshId }
  match rb_mongory_matcher_parse_argv dconv cconv fuel s0 cond ctxArg with
  | none => .stuck
  | some (cval, ctx, s1) =>
    let s2 :=
      match builder cval with
      | some e => { s1 with pool := { s1.pool with error := some e } }
      | none => s1
    match rb_mongory_error_handling s2.pool "Failed to create matcher" with
    | .error (msg, _) => .raised msg false false
    | .ok _ => .ok { condition := cval, ctx := ctx, tracePool := none, st := s2 }

/-- Result of `Mongory::CMatcher#match?`: the boolean result or a raised
exception, together with the scratch pool and trace pool after the call. -/
inductive MatchOutcome where
  | ok (result : Bool) (scratchAfter : PoolState) (traceAfter : Option PoolState)
  | raised (msg : String) (scratchAfter : PoolState) (traceAfter : Option PoolState)
deriving Repr

/-- `rb_mongory_matcher_match`: shallow-convert the data into the scratch
pool, check the scratch pool's error slot (raising if set — in that case
the `scratch_pool->reset` at the end of the C function is never reached),
evaluate the external matcher (`mongory_matcher_match`, modelled by the
black-box `evalFn`), handle the trace pool (print, reset, re-enable) when
tracing is enabled, and reset the scratch pool. -/
def rb_mongory_matcher_match (evalFn : MValue → MValue → Bool)
    (w : Wrapper) (data : RubyValue) : MatchOutcome :=
  let p := rb_to_mongory_value_shallow dconv w.st .scratch data
  match rb_mongory_error_handling p.2.scratch "Match failed" with
  | .error (msg, pe) => .raised msg pe w.tracePool
  | .ok _ =>
    let result := evalFn w.condition p.1
    let traceAfter := w.tracePool.map PoolState.reset
    .ok result p.2.scratch.reset traceAfter

/-- Result of the trace control operations.  `nullDeref` marks the undefined
behavior of dereferencing a null `trace_pool` pointer. -/
inductive TraceOpResult where
  | ok (w : Wrapper)
  | raised (msg : String) (w : Wrapper)
  | nullDeref
deriving Repr

/-- `rb_mongory_matcher_enable_trace`: allocate a dedicated trace pool, hand
it to the evaluator (`mongory_matcher_enable_trace`, whose failure —
modelled by `enableErr` — is written into the trace pool's error slot), and
check that slot; on success store the pool on the wrapper. -/
def rb_mongory_matcher_enable_trace (capTrace : Option Nat) (enableErr : Option String)
    (w : Wrapper) : TraceOpResult :=
  let tp := PoolState.fresh capTrace
  let tp :=
    match enableErr with
    | some e => { tp with error := some e }
    | none => tp
  match rb_mongory_error_handling tp "Enable trace failed" with
  | .error (msg, _) => .raised msg w
  | .ok _ => .ok { w with tracePool := some tp }

/-- `rb_mongory_matcher_disable_trace`: reads `wrapper->trace_pool` and hands
it straight to `rb_mongory_error_handling`, which dereferences
`pool->error`; it then calls `trace_pool->free(trace_pool)`.  When tracing
was never enabled the pointer is `NULL` and both dereferences are undefined
behavior — there is no null check. -/
def rb_mongory_matcher_disable_trace (w : Wrapper) : TraceOpResult :=
  match w.tracePool with
  | none => .nullDeref
  | some tp =>
    match rb_mongory_error_handling tp "Disable trace failed" with
    | .error (msg, _) => .raised msg w
    | .ok _ => .ok { w with tracePool := none }

/-- `rb_mongory_matcher_print_trace`: prints the trace
(`mongory_matcher_print_trace`, a diagnostic side effect) and passes
`wrapper->trace_pool` to the error-slot check, which dereferences it —
undefined behavior when tracing was never enabled. -/
def rb_mongory_matcher_print_trace (w : Wrapper) : TraceOpResult :=
  match w.tracePool with
  | none => .nullDeref
  | some tp =>
    match rb_mongory_error_handling tp "Print trace failed" with
    | .error (msg, _) => .raised msg w
    | .ok _ => .ok w

/-- `rb_mongory_matcher_condition`: returns `wrapper->condition->origin`. -/
def rb_mongory_matcher_condition (w : Wrapper) : Option RubyValue :=
  w.condition.origin

/-- `rb_mongory_matcher_context`: returns `wrapper->ctx` (never null after a
successful `create`). -/
def rb_mongory_matcher_context (w : Wrapper) : RubyValue := w.ctx

end Facade

/-- The host objects the GC marking pass roots:
`rb_mongory_matcher_mark` walks the mark list and `gc_mark_array_cb` calls
`rb_gc_mark(value->origin)` on each entry with a non-null origin. -/
def markedRoots (s : SState) : List RubyValue :=
  s.markList.filterMap MValue.origin

/-- The heap ids a GC pass keeps alive: `rb_gc_mark` marks the object and the
collector traverses everything reachable from it. -/
def reachableIds (s : SState) : List Nat :=
  ((markedRoots s).map RubyValue.ids).flatten

/-- The host key objects recorded in the owner's key maps (the `origin`s of
the `wrap_u` store values in `string_map` and `symbol_map`). -/
def recordedKeyOrigins (s : SState) : List RubyValue :=
  ((s.stringMap.map Prod.snd) ++ (s.symbolMap.map Prod.snd)).filterMap MValue.origin

/-- The heap ids of the recorded host key objects themselves. -/
def recordedKeyIds (s : SState) : List Nat :=
  (recordedKeyOrigins s).filterMap RubyValue.selfId

mutual

/-- No `vother` node anywhere in the value: conversion never reaches the
default branch, so the data-converter hook is never invoked. -/
def RubyValue.noOther : RubyValue → Bool
  | .vnil | .vbool _ | .vint _ | .vsym _ | .vstr _ _ | .vregex _ _ => true
  | .vother _ _ => false
  | .varray _ es => noOtherList es
  | .vhash _ ps => noOtherPairs ps

/-- `noOther` over a list of values -/
def noOtherList : List RubyValue → Bool
  | [] => true
  | v :: vs => v.noOther && noOtherList vs

/-- `noOther` over key/value pairs -/
def noOtherPairs : List (RubyValue × RubyValue) → Bool
  | [] => true
  | (k, v) :: ps => k.noOther && v.noOther && noOtherPairs ps

end

/-- Select a pool from the bridge state. -/
def SState.poolOf (s : SState) : PoolId → PoolState
  | .main => s.pool
  | .scratch => s.scratch

/-- Well-formedness of the key interning caches: a store cached under raw key
bytes `k` holds, as its `origin`, a host string with content `k` in the
string map and the host symbol named `k` in the symbol map.  Freshly created
matcher states satisfy this (their caches are empty), and the cache helpers
preserve it. -/
def CacheWF (s : SState) : Prop :=
  (∀ k st, (k, st) ∈ s.stringMap → ∀ o, st.origin = some o → ∃ i, o = .vstr i k) ∧
  (∀ k st, (k, st) ∈ s.symbolMap → ∀ o, st.origin = some o → o = .vsym k)

/-- Key-map entries added between two bridge states stay inside a given set
of host heap ids, and the Root Retention List is untouched: the invariant
deep conversion maintains for the states it threads. -/
def MapsWithin (s s' : SState) (a : List Nat) : Prop :=
  (∀ e, e ∈ s'.stringMap →
      e ∈ s.stringMap ∨ ∃ o, (e.2).origin = some o ∧ ∀ i ∈ o.ids, i ∈ a) ∧
  (∀ e, e ∈ s'.symbolMap →
      e ∈ s.symbolMap ∨ ∃ o, (e.2).origin = some o ∧ ∀ i ∈ o.ids, i ∈ a) ∧
  s'.markList = s.markList

/-- An empty bridge state: two fresh unbounded pools, empty caches and mark
list, host heap ids starting at 50 (all concrete inputs below use ids
under 50). -/
def initState : SState :=
  { pool := PoolState.fresh none, scratch := PoolState.fresh none,
    stringMap := [], symbolMap := [], markList := [], nextId := 50 }

/-- A placeholder wrapper, used only as the junk branch of `wrapperOf`. -/
def emptyWrapper : Wrapper :=
  { condition := .mnull none, ctx := .vnil, tracePool := none, st := initState }

/-- Extract the wrapper from a successful `create`. -/
def wrapperOf : CreateResult → Wrapper
  | .ok w => w
  | _ => emptyWrapper

/-- A condition converter hook that rewrites every condition into a different
(freshly allocated) host string — the shape hooks of this kind commonly
have: they normalize the condition into a new object. -/
def c1xCconv : RubyValue → RubyValue := fun _ => .vstr 5 "conv"

/-- `create` of the condition `"orig"` (host string, id 1) under `c1xCconv`,
with an identity data converter and a successful evaluator build. -/
def c1xCreate : CreateResult :=
  rb_mongory_matcher_new id c1xCconv 100 none none (fun _ => none) 50
    (.vstr 1 "orig") (some (.vother 40 "ctx"))

/-- `create` of the condition `"orig"` with identity converter hooks. -/
def c1wCreate : CreateResult :=
  rb_mongory_matcher_new id id 100 none none (fun _ => none) 50
    (.vstr 1 "orig") (some (.vother 40 "ctx"))

/-- A data converter hook that rewrites the unsupported object (id 3) into a
freshly allocated host hash (id 10) with a freshly allocated string key
(id 11). -/
def c2xDconv : RubyValue → RubyValue := fun v =>
  match v with
  | .vother 3 _ => .vhash 10 [(.vstr 11 "k", .vint 1)]
  | v => v

/-- `create` of the condition `{"a" => custom}` where deep conversion sends
the custom object through `c2xDconv`. -/
def c2xCreate : CreateResult :=
  rb_mongory_matcher_new c2xDconv id 100 none none (fun _ => none) 50
    (.vhash 1 [(.vstr 2 "a", .vother 3 "custom")]) (some (.vother 40 "ctx"))

/-- `create` of the converter-free condition `{"a" => 7}`. -/
def c2wCreate : CreateResult :=
  rb_mongory_matcher_new id id 100 none none (fun _ => none) 50
    (.vhash 1 [(.vstr 2 "a", .vint 7)]) (some (.vother 40 "ctx"))

/-- A matcher wrapper whose scratch pool has zero capacity, so the very first
allocation of a shallow conversion sets the scratch pool's error slot. -/
def c3xWrapper : Wrapper :=
  { condition := .mnull none, ctx := .vother 40 "ctx", tracePool := none,
    st := { initState with scratch := PoolState.fresh (some 0) } }

/-- A matcher wrapper with unbounded pools. -/
def c3wWrapper : Wrapper :=
  { condition := .mnull none, ctx := .vother 40 "ctx", tracePool := none,
    st := initState }

/-- A data converter hook whose rewrite of an unsupported host object is
itself unsupported (it does not resolve the value into a known shape). -/
def c5xDconv : RubyValue → RubyValue := fun _ => .vother 2 "weirder"

/-- A wrapper on which tracing was never enabled (`trace_pool == NULL`). -/
def c10xWrapper : Wrapper :=
  { condition := .mnull none, ctx := .vnil, tracePool := none, st := initState }

/-- A wrapper after a successful `enable_trace` (non-null, error-free trace
pool). -/
def c10wWrapper : Wrapper :=
  { condition := .mnull none, ctx := .vnil, tracePool := some (PoolState.fresh none),
    st := initState }

/-! ## Helper lemmas -/

theorem MValue.origin_mu (p o : Option RubyValue) : (MValue.mu p o).origin = o :=
  rfl

theorem MValue.origin_setOrigin (m : MValue) (o : Option RubyValue) :
    (m.setOrigin o).origin = o := by
  cases m <;> rfl

theorem PoolState.alloc_resets (p : PoolState) (n : Nat) :
    (p.alloc n).resets = p.resets := by
  unfold PoolState.alloc
  split
  · rfl
  · split
    · rfl
    · split <;> rfl

theorem SState.alloc_scratch_resets (s : SState) (pid : PoolId) :
    (s.alloc pid).scratch.resets = s.scratch.resets := by
  cases pid <;> simp [SState.alloc, PoolState.alloc_resets]

theorem SState.alloc_stringMap (s : SState) (pid : PoolId) :
    (s.alloc pid).stringMap = s.stringMap := by
  cases pid <;> rfl

theorem SState.alloc_symbolMap (s : SState) (pid : PoolId) :
    (s.alloc pid).symbolMap = s.symbolMap := by
  cases pid <;> rfl

theorem SState.alloc_markList (s : SState) (pid : PoolId) :
    (s.alloc pid).markList = s.markList := by
  cases pid <;> rfl

theorem RubyValue.selfId_mem_ids (v : RubyValue) (i : Nat) (h : v.selfId = some i) :
    i ∈ v.ids := by
  cases v <;> simp_all [RubyValue.selfId, RubyValue.ids]

theorem rb_hash_lookup2_vstr_id (h : List (RubyValue × RubyValue)) (i j : Nat)
    (key : String) :
    rb_hash_lookup2 h (.vstr i key) = rb_hash_lookup2 h (.vstr j key) := by
  induction h with
  | nil => rfl
  | cons e rest ih =>
    obtain ⟨k, v⟩ := e
    show (if rubyEql k (.vstr i key) then some v else _) =
      (if rubyEql k (.vstr j key) then some v else _)
    have : rubyEql k (.vstr i key) = rubyEql k (.vstr j key) := by
      cases k <;> rfl
    rw [this, ih]

theorem mem_tableSet (m : List (String × MValue)) (key : String) (v : MValue)
    (e : String × MValue) (h : e ∈ tableSet m key v) : e ∈ m ∨ e = (key, v) := by
  induction m with
  | nil => simp [tableSet] at h; simp [h]
  | cons p rest ih =>
    obtain ⟨k, w⟩ := p
    by_cases hk : k = key
    · simp only [tableSet, if_pos hk] at h
      rcases List.mem_cons.mp h with h1 | h1
      · right; exact h1
      · left; exact List.mem_cons_of_mem _ h1
    · simp only [tableSet, if_neg hk] at h
      rcases List.mem_cons.mp h with h1 | h1
      · left; exact h1 ▸ List.mem_cons_self _ _
      · rcases ih h1 with h2 | h2
        · left; exact List.mem_cons_of_mem _ h2
        · right; exact h2

theorem assocGet_mem (m : List (String × MValue)) (k : String) (v : MValue)
    (h : assocGet m k = some v) : (k, v) ∈ m := by
  induction m with
  | nil => simp [assocGet] at h
  | cons p rest ih =>
    obtain ⟨k', w⟩ := p
    by_cases hk : k' = k
    · simp only [assocGet, if_pos hk] at h
      subst hk
      cases h
      exact List.mem_cons_self _ _
    · simp only [assocGet, if_neg hk] at h
      exact List.mem_cons_of_mem _ (ih h)

theorem MapsWithin.of_eq {s s' : SState} {a : List Nat}
    (h1 : s'.stringMap = s.stringMap) (h2 : s'.symbolMap = s.symbolMap)
    (h3 : s'.markList = s.markList) : MapsWithin s s' a := by
  refine ⟨?_, ?_, h3⟩
  · intro e he; left; rw [h1] at he; exact he
  · intro e he; left; rw [h2] at he; exact he

theorem MapsWithin.refl {s : SState} {a : List Nat} : MapsWithin s s a :=
  MapsWithin.of_eq (Eq.refl _) (Eq.refl _) (Eq.refl _)

theorem MapsWithin.trans {s1 s2 s3 : SState} {a : List Nat}
    (h12 : MapsWithin s1 s2 a) (h23 : MapsWithin s2 s3 a) : MapsWithin s1 s3 a := by
  obtain ⟨hs12, hy12, hm12⟩ := h12
  obtain ⟨hs23, hy23, hm23⟩ := h23
  refine ⟨?_, ?_, hm23.trans hm12⟩
  · intro e he
    rcases hs23 e he with h | h
    · exact hs12 e h
    · right; exact h
  · intro e he
    rcases hy23 e he with h | h
    · exact hy12 e h
    · right; exact h

theorem MapsWithin.mono {s s' : SState} {a b : List Nat}
    (hab : ∀ i ∈ a, i ∈ b) (h : MapsWithin s s' a) : MapsWithin s s' b := by
  obtain ⟨hs, hy, hm⟩ := h
  refine ⟨?_, ?_, hm⟩
  · intro e he
    rcases hs e he with h1 | ⟨o, ho, hids⟩
    · left; exact h1
    · right; exact ⟨o, ho, fun i hi => hab i (hids i hi)⟩
  · intro e he
    rcases hy e he with h1 | ⟨o, ho, hids⟩
    · left; exact h1
    · right; exact ⟨o, ho, fun i hi => hab i (hids i hi)⟩

theorem MapsWithin.alloc {s : SState} {a : List Nat} (pid : PoolId) :
    MapsWithin s (s.alloc pid) a :=
  MapsWithin.of_eq (s.alloc_stringMap pid) (s.alloc_symbolMap pid) (s.alloc_markList pid)

theorem deep_rec_origin (dconv : RubyValue → RubyValue) (fuel : Nat) (s : SState)
    (pid : PoolId) (v : RubyValue) (conv : Bool) (mv : MValue) (s' : SState)
    (h : rb_to_mongory_value_deep_rec dconv fuel s pid v conv = some (mv, s')) :
    mv.origin = some v := by
  cases fuel with
  | zero => simp [rb_to_mongory_value_deep_rec] at h
  | succ n =>
    simp only [rb_to_mongory_value_deep_rec] at h
    split at h
    · -- primitive wrapped; origin set to v
      rename_i mg s1 _
      obtain ⟨h1, h2⟩ := Prod.mk.injEq .. ▸ Option.some.inj h
      exact h1 ▸ MValue.origin_setOrigin mg (some v)
    · split at h
      · -- array
        split at h
        · exact absurd h (by simp)
        · rename_i ms s2 _
          obtain ⟨h1, _⟩ := Prod.mk.injEq .. ▸ Option.some.inj h
          rw [← h1]; rfl
      · -- hash
        split at h
        · exact absurd h (by simp)
        · rename_i tbl s2 _
          obtain ⟨h1, _⟩ := Prod.mk.injEq .. ▸ Option.some.inj h
          rw [← h1]; rfl
      · -- default branch
        split at h
        · -- converted = true: opaque wrap
          obtain ⟨h1, _⟩ := Prod.mk.injEq .. ▸ Option.some.inj h
          rw [← h1]; rfl
        · -- converted = false: converter invoked, origin overwritten with v
          split at h
          · exact absurd h (by simp)
          · rename_i mg s1 _
            obtain ⟨h1, _⟩ := Prod.mk.injEq .. ▸ Option.some.inj h
            exact h1 ▸ MValue.origin_setOrigin mg (some v)

theorem idsPairs_cons (k val : RubyValue) (rest : List (RubyValue × RubyValue)) :
    idsPairs ((k, val) :: rest) = k.ids ++ (val.ids ++ idsPairs rest) := by
  simp [idsPairs]

theorem MapsWithin.insertString {s1 : SState} {keyStr : String} {store : MValue}
    {o : RubyValue} (ho : store.origin = some o) :
    MapsWithin s1 { s1 with stringMap := tableSet s1.stringMap keyStr store } o.ids := by
  refine ⟨?_, fun e he => Or.inl he, Eq.refl _⟩
  intro e he
  rcases mem_tableSet _ _ _ _ he with h1 | h1
  · left; exact h1
  · right; exact ⟨o, h1 ▸ ho, fun i hi => hi⟩

theorem MapsWithin.insertSymbol {s1 : SState} {keyStr : String} {store : MValue}
    {o : RubyValue} (ho : store.origin = some o) :
    MapsWithin s1 { s1 with symbolMap := tableSet s1.symbolMap keyStr store } o.ids := by
  refine ⟨fun e he => Or.inl he, ?_, Eq.refl _⟩
  intro e he
  rcases mem_tableSet _ _ _ _ he with h1 | h1
  · left; exact h1
  · right; exact ⟨o, h1 ▸ ho, fun i hi => hi⟩

theorem rb_to_mongory_value_primitive_maps (s : SState) (pid : PoolId) (v : RubyValue)
    (a : List Nat) : MapsWithin s (rb_to_mongory_value_primitive s pid v).2 a := by
  cases v <;>
    first
      | exact MapsWithin.alloc pid
      | exact MapsWithin.refl

theorem deepConvertList_maps (f : SState → RubyValue → Option (MValue × SState))
    (hf : ∀ s v mv s', v.noOther = true → f s v = some (mv, s') → MapsWithin s s' v.ids) :
    ∀ l s ms s', noOtherList l = true →
      deepConvertList f s l = some (ms, s') → MapsWithin s s' (idsList l) := by
  intro l
  induction l with
  | nil =>
    intro s ms s' _ h
    simp only [deepConvertList, Option.some.injEq, Prod.mk.injEq] at h
    exact h.2 ▸ MapsWithin.refl
  | cons v vs ih =>
    intro s ms s' hno h
    simp only [noOtherList, Bool.and_eq_true] at hno
    simp only [deepConvertList] at h
    split at h
    · exact absurd h (by simp)
    · rename_i mv s1 heq
      split at h
      · exact absurd h (by simp)
      · rename_i ms2 s2 heq2
        obtain ⟨h1, h2⟩ := Prod.mk.injEq .. ▸ Option.some.inj h
        have m1 := (hf s v mv s1 hno.1 heq).mono
          (fun i hi => show i ∈ v.ids ++ idsList vs from List.mem_append_left _ hi)
        have m2 := (ih s1 ms2 s2 hno.2 heq2).mono
          (fun i hi => show i ∈ v.ids ++ idsList vs from List.mem_append_right _ hi)
        exact h2 ▸ m1.trans m2

theorem deepConvertPairs_maps (f : SState → RubyValue → Option (MValue × SState))
    (pid : PoolId)
    (hf : ∀ s v mv s', v.noOther = true → f s v = some (mv, s') → MapsWithin s s' v.ids) :
    ∀ l s acc tbl s', noOtherPairs l = true →
      deepConvertPairs f pid s l acc = some (tbl, s') → MapsWithin s s' (idsPairs l) := by
  intro l
  induction l with
  | nil =>
    intro s acc tbl s' _ h
    simp only [deepConvertPairs, Option.some.injEq, Prod.mk.injEq] at h
    exact h.2 ▸ MapsWithin.refl
  | cons p rest ih =>
    obtain ⟨k, val⟩ := p
    intro s acc tbl s' hno h
    simp only [noOtherPairs, Bool.and_eq_true] at hno
    simp only [deepConvertPairs] at h
    split at h
    · exact absurd h (by simp)
    · rename_i keyStr hkey
      split at h
      · exact absurd h (by simp)
      · rename_i cval s3 heq
        -- names from the definition: s1 = s.alloc pid, s2 = s1 with the key store
        have hsub1 : ∀ i ∈ k.ids, i ∈ idsPairs ((k, val) :: rest) := fun i hi => by
          rw [idsPairs_cons]; exact List.mem_append_left _ hi
        have hsub2 : ∀ i ∈ val.ids, i ∈ idsPairs ((k, val) :: rest) := fun i hi => by
          rw [idsPairs_cons]; exact List.mem_append_right _ (List.mem_append_left _ hi)
        have hsub3 : ∀ i ∈ idsPairs rest, i ∈ idsPairs ((k, val) :: rest) := fun i hi => by
          rw [idsPairs_cons]; exact List.mem_append_right _ (List.mem_append_right _ hi)
        have mStore :
            MapsWithin (s.alloc pid)
              (if k.isSymbol then
                { s.alloc pid with
                  symbolMap := tableSet (s.alloc pid).symbolMap keyStr (.mu none (some k)) }
               else
                { s.alloc pid with
                  stringMap := tableSet (s.alloc pid).stringMap keyStr (.mu none (some k)) })
              k.ids := by
          split
          · exact MapsWithin.insertSymbol (by rfl)
          · exact MapsWithin.insertString (by rfl)
        have m0 : MapsWithin s (s.alloc pid) (idsPairs ((k, val) :: rest)) :=
          MapsWithin.alloc pid
        have m1 := mStore.mono hsub1
        have m2 := (hf _ val cval s3 hno.1.2 heq).mono hsub2
        have m3 := (ih s3 _ tbl s' hno.2 h).mono hsub3
        exact m0.trans (m1.trans (m2.trans m3))

theorem deep_rec_maps (dconv : RubyValue → RubyValue) :
    ∀ fuel s pid v conv mv s', v.noOther = true →
      rb_to_mongory_value_deep_rec dconv fuel s pid v conv = some (mv, s') →
      MapsWithin s s' v.ids := by
  intro fuel
  induction fuel with
  | zero =>
    intro s pid v conv mv s' _ h
    simp [rb_to_mongory_value_deep_rec] at h
  | succ n ih =>
    intro s pid v conv mv s' hno h
    simp only [rb_to_mongory_value_deep_rec] at h
    cases v with
    | vnil =>
      simp only [rb_to_mongory_value_primitive, Option.some.injEq, Prod.mk.injEq] at h
      exact h.2 ▸ MapsWithin.alloc pid
    | vbool b =>
      simp only [rb_to_mongory_value_primitive, Option.some.injEq, Prod.mk.injEq] at h
      exact h.2 ▸ MapsWithin.alloc pid
    | vint nn =>
      simp only [rb_to_mongory_value_primitive, Option.some.injEq, Prod.mk.injEq] at h
      exact h.2 ▸ MapsWithin.alloc pid
    | vstr i str =>
      simp only [rb_to_mongory_value_primitive, Option.some.injEq, Prod.mk.injEq] at h
      exact h.2 ▸ MapsWithin.alloc pid
    | vsym str =>
      simp only [rb_to_mongory_value_primitive, Option.some.injEq, Prod.mk.injEq] at h
      exact h.2 ▸ MapsWithin.alloc pid
    | vregex i src =>
      simp only [rb_to_mongory_value_primitive, Option.some.injEq, Prod.mk.injEq] at h
      exact h.2 ▸ MapsWithin.alloc pid
    | vother i tag => simp [RubyValue.noOther] at hno
    | varray i elems =>
      simp only [rb_to_mongory_value_primitive] at h
      split at h
      · exact absurd h (by simp)
      · rename_i ms s2 heq2
        obtain ⟨_, h2⟩ := Prod.mk.injEq .. ▸ Option.some.inj h
        simp only [RubyValue.noOther] at hno
        have mconv := deepConvertList_maps _
          (fun s v mv s' hn hf => ih s pid v false mv s' hn hf) elems
          (s.alloc pid) ms s2 hno heq2
        have hsub : ∀ j ∈ idsList elems, j ∈ (RubyValue.varray i elems).ids :=
          fun j hj => show j ∈ i :: idsList elems from List.mem_cons_of_mem _ hj
        exact h2 ▸ ((MapsWithin.alloc pid).trans
          ((mconv.mono hsub).trans (MapsWithin.alloc pid)))
    | vhash i pairs =>
      simp only [rb_to_mongory_value_primitive] at h
      split at h
      · exact absurd h (by simp)
      · rename_i tbl s2 heq2
        obtain ⟨_, h2⟩ := Prod.mk.injEq .. ▸ Option.some.inj h
        simp only [RubyValue.noOther] at hno
        have mconv := deepConvertPairs_maps _ pid
          (fun s v mv s' hn hf => ih s pid v false mv s' hn hf) pairs
          (s.alloc pid) [] tbl s2 hno heq2
        have hsub : ∀ j ∈ idsPairs pairs, j ∈ (RubyValue.vhash i pairs).ids :=
          fun j hj => show j ∈ i :: idsPairs pairs from List.mem_cons_of_mem _ hj
        exact h2 ▸ ((MapsWithin.alloc pid).trans
          ((mconv.mono hsub).trans (MapsWithin.alloc pid)))

theorem shallowCore_scratch_resets (s : SState) (pid : PoolId) (v : RubyValue)
    (dflt : SState → MValue × SState)
    (hd : ∀ s1, ((dflt s1).2).scratch.resets = s1.scratch.resets) :
    ((shallowCore s pid v dflt).2).scratch.resets = s.scratch.resets := by
  cases v <;>
    simp [shallowCore, rb_to_mongory_value_primitive, rb_mongory_array_wrap,
      rb_mongory_table_wrap, SState.alloc_scratch_resets, hd]

theorem shallow_rec_scratch_resets (dconv : RubyValue → RubyValue) (s : SState)
    (pid : PoolId) (v : RubyValue) (conv : Bool) :
    (rb_to_mongory_value_shallow_rec dconv s pid v conv).2.scratch.resets
      = s.scratch.resets := by
  cases conv
  case true =>
    exact shallowCore_scratch_resets s pid v _
      (fun s1 => SState.alloc_scratch_resets s1 pid)
  case false =>
    refine shallowCore_scratch_resets s pid v _ (fun s1 => ?_)
    exact shallowCore_scratch_resets s1 pid (dconv v) _
      (fun s2 => SState.alloc_scratch_resets s2 pid)

theorem cache_fetch_string_shape (s : SState) (key : String) (hwf : CacheWF s) :
    ∃ i, (cache_fetch_string s key).1 = RubyValue.vstr i key := by
  cases hget : assocGet s.stringMap key with
  | none => exact ⟨s.nextId, by simp [cache_fetch_string, hget]⟩
  | some store =>
    cases ho : store.origin with
    | none => exact ⟨s.nextId, by simp [cache_fetch_string, hget, ho]⟩
    | some o =>
      obtain ⟨i, hi⟩ := hwf.1 key store (assocGet_mem _ _ _ hget) o ho
      exact ⟨i, by simp [cache_fetch_string, hget, ho, hi]⟩

theorem cache_fetch_symbol_shape (s : SState) (key : String) (hwf : CacheWF s) :
    (cache_fetch_symbol s key).1 = RubyValue.vsym key := by
  cases hget : assocGet s.symbolMap key with
  | none => simp [cache_fetch_symbol, hget]
  | some store =>
    cases ho : store.origin with
    | none => simp [cache_fetch_symbol, hget, ho]
    | some o =>
      have := hwf.2 key store (assocGet_mem _ _ _ hget) o ho
      simp [cache_fetch_symbol, hget, ho, this]

theorem cache_fetch_string_state (s : SState) (key : String) :
    (cache_fetch_string s key).2 = s ∨
    (cache_fetch_string s key).2 =
      { (({ s with nextId := s.nextId + 1 } : SState).alloc .main) with
        stringMap := tableSet s.stringMap key (.mu none (some (.vstr s.nextId key))),
        markList := s.markList ++ [.mu none (some (.vstr s.nextId key))] } := by
  cases hget : assocGet s.stringMap key with
  | none => right; simp [cache_fetch_string, hget, SState.alloc]
  | some store =>
    cases ho : store.origin with
    | none => right; simp [cache_fetch_string, hget, ho, SState.alloc]
    | some o => left; simp [cache_fetch_string, hget, ho]

theorem cache_fetch_string_wf (s : SState) (key : String) (hwf : CacheWF s) :
    CacheWF (cache_fetch_string s key).2 := by
  rcases cache_fetch_string_state s key with hst | hst
  · rw [hst]; exact hwf
  · rw [hst]
    refine ⟨?_, ?_⟩
    · intro k st hmem o hoo
      simp only [SState.alloc] at hmem
      rcases mem_tableSet _ _ _ _ hmem with h1 | h1
      · exact hwf.1 k st h1 o hoo
      · obtain ⟨hk, hst2⟩ := Prod.mk.injEq .. ▸ h1
        subst hk
        rw [hst2] at hoo
        exact ⟨s.nextId, (Option.some.inj hoo).symm⟩
    · intro k st hmem o hoo
      simp only [SState.alloc] at hmem
      exact hwf.2 k st hmem o hoo

theorem error_handling_error (p : PoolState) (msg msg' : String) (pe : PoolState)
    (h : rb_mongory_error_handling p msg = .error (msg', pe)) :
    pe = p ∧ p.error ≠ none := by
  unfold rb_mongory_error_handling at h
  split at h
  · rename_i e he
    obtain ⟨_, h2⟩ := Prod.mk.injEq .. ▸ Except.error.inj h
    exact ⟨h2.symm, by rw [he]; simp⟩
  · exact absurd h (by simp)

theorem initState_cacheWF : CacheWF initState := by
  constructor
  · intro k st hmem
    exact absurd hmem (List.not_mem_nil _)
  · intro k st hmem
    exact absurd hmem (List.not_mem_nil _)

theorem parse_argv_condition_origin (dconv cconv : RubyValue → RubyValue) (fuel : Nat)
    (s : SState) (cond : RubyValue) (ctxArg : Option RubyValue) (cval : MValue)
    (ctx : RubyValue) (s4 : SState)
    (h : rb_mongory_matcher_parse_argv dconv cconv fuel s cond ctxArg
          = some (cval, ctx, s4)) :
    cval.origin = some (cconv cond) := by
  simp only [rb_mongory_matcher_parse_argv] at h
  split at h
  · exact absurd h (by simp)
  · rename_i mv s1 hdeep
    have h1 : mv = cval := by
      have := Option.some.inj h
      exact (Prod.mk.injEq .. ▸ this).1
    exact h1 ▸ deep_rec_origin dconv fuel _ .main (cconv cond) false mv s1 hdeep

/-! ## Claim theorems -/

/-- C4: the claim states that when the bridge finds a pool's error slot set it
translates the error into a host exception **and clears the slot**.  The
code raises with `rb_raise`, which does not return, so the clearing
statement after it is dead: evaluating `rb_mongory_error_handling` on a pool
with the error slot set to `"boom"` yields the raised exception with the
pool state still carrying `error = some "boom"` — the slot is not null
after the failure is reported. -/
theorem C4_theorem :
    rb_mongory_error_handling
        { used := 0, capacity := none, error := some "boom", resets := 0, freed := false }
        "Match failed" =
      .error ("Match failed: boom",
        { used := 0, capacity := none, error := some "boom", resets := 0, freed := false }) :=
  rfl

/-- C8: the claim states that a failed `create` frees both pools before
reporting the failure.  Evaluating `create` with an evaluator builder that
fails (writing `"boom"` into the long-lived pool's error slot) shows the
exception escaping with both teardown flags `false`: `rb_raise` inside
`rb_mongory_error_handling` does not return, so the teardown block
(`pool->free; scratch_pool->free; xfree(wrapper)`) that the C source guards
behind the error check is unreachable.  No matcher object escapes (the
result is not `.ok`), but the pools are leaked, not freed. -/
theorem C8_theorem :
    rb_mongory_matcher_new id id 100 none none (fun _ => some "boom") 50
        (.vstr 1 "x") (some (.vother 40 "ctx")) =
      .raised "Failed to create matcher: boom" false false :=
  rfl

/-- C9 (confirmed): the regex adapter returns match/no-match; on first use
with a string-typed pattern it compiles a host regex (from the pattern's
`origin`), caches the compiled pattern back onto the pattern value in place
(the compiled flag is `true` and the returned pattern is the regex-typed
value), and every subsequent call with that cached pattern value reuses it
(compiled flag `false`, pattern returned unchanged, no fresh host
allocation and no arena allocation). -/
theorem C9_theorem (rmatch : String → String → Bool) (s s' : SState) (pid pid' : PoolId)
    (pi vi vi' : Nat) (src str str' : String) :
    rb_mongory_regex_match_adapter rmatch s pid
        (.mstr src (some (.vstr pi src))) (.mstr str (some (.vstr vi str))) =
      some (rmatch src str,
        .mregex (some (.vregex s.nextId src)) (some (.vregex s.nextId src)), true,
        ({ s with nextId := s.nextId + 1 } : SState).alloc pid) ∧
    rb_mongory_regex_match_adapter rmatch s' pid'
        (.mregex (some (.vregex s.nextId src)) (some (.vregex s.nextId src)))
        (.mstr str' (some (.vstr vi' str'))) =
      some (rmatch src str',
        .mregex (some (.vregex s.nextId src)) (some (.vregex s.nextId src)), false, s') :=
  ⟨rfl, rfl⟩

/-- C10 (confirmed): a non-null trace pool (left by a successful prior
`enable_trace`) is a precondition for `disable_trace` and `print_trace`:
when tracing was never enabled (`tracePool = none`) both operations
dereference the null trace pool (undefined behavior, no explicit error);
with a non-null trace pool neither operation reaches the null
dereference. -/
theorem C10_theorem (w : Wrapper) :
    (w.tracePool = none →
        rb_mongory_matcher_disable_trace w = .nullDeref ∧
        rb_mongory_matcher_print_trace w = .nullDeref) ∧
    (∀ tp, w.tracePool = some tp →
        rb_mongory_matcher_disable_trace w ≠ .nullDeref ∧
        rb_mongory_matcher_print_trace w ≠ .nullDeref) := by
  constructor
  · intro h
    constructor <;>
      simp [rb_mongory_matcher_disable_trace, rb_mongory_matcher_print_trace, h]
  · intro tp h
    constructor <;>
    · simp only [rb_mongory_matcher_disable_trace, rb_mongory_matcher_print_trace, h]
      cases htp : tp.error <;> simp [rb_mongory_error_handling, htp]

/-- C10 witness: on a wrapper with tracing never enabled both operations hit
the null dereference; on a wrapper with an enabled trace pool neither
does. -/
theorem C10_witness :
    (rb_mongory_matcher_disable_trace c10xWrapper = .nullDeref ∧
     rb_mongory_matcher_print_trace c10xWrapper = .nullDeref) ∧
    (rb_mongory_matcher_disable_trace c10wWrapper ≠ .nullDeref ∧
     rb_mongory_matcher_print_trace c10wWrapper ≠ .nullDeref) :=
  ⟨(C10_theorem c10xWrapper).1 rfl,
   (C10_theorem c10wWrapper).2 (PoolState.fresh none) rfl⟩

/-- C5: the claim states that an unsupported host value reaching the default
branch a second time is a hard conversion failure signaled through the
pool's error slot.  Evaluating both conversions on an unsupported value
whose converter rewrite is again unsupported shows the opposite: the
conversion **succeeds**, producing an opaque `wrap_u` value (with the
shallow version the `origin` is even the converted value, with the deep
version the original), and the pool's error slot stays `none`. -/
theorem C5_counterexample :
    rb_to_mongory_value_shallow c5xDconv initState .scratch (.vother 1 "weird") =
      (.mu (some (.vother 2 "weirder")) (some (.vother 2 "weirder")),
       { initState with scratch := initState.scratch.alloc 1 }) ∧
    rb_to_mongory_value_deep c5xDconv 100 initState .scratch (.vother 1 "weird") =
      some (.mu (some (.vother 2 "weirder")) (some (.vother 1 "weird")),
        { initState with scratch := initState.scratch.alloc 1 }) ∧
    (initState.scratch.alloc 1).error = none :=
  ⟨rfl, rfl, rfl⟩

/-- C5 (amended): an unsupported host value reaching the default branch a
second time (after the converter hook already ran once) is **not** an
error: it becomes an opaque `wrap_u` value carrying the host handle, with
one arena allocation and the pool's error slot unchanged (unless the arena
allocation itself fails); this still prevents infinite rewrite loops, since
the hook runs at most once per conversion. -/
theorem C5_amended (dconv : RubyValue → RubyValue) (s : SState) (pid : PoolId)
    (i : Nat) (tag : String) (fuel : Nat)
    (hfree : (s.poolOf pid).freed = false) (hcap : (s.poolOf pid).capacity = none) :
    rb_to_mongory_value_shallow_rec dconv s pid (.vother i tag) true =
      (.mu (some (.vother i tag)) (some (.vother i tag)), s.alloc pid) ∧
    rb_to_mongory_value_deep_rec dconv (fuel + 1) s pid (.vother i tag) true =
      some (.mu (some (.vother i tag)) (some (.vother i tag)), s.alloc pid) ∧
    ((s.alloc pid).poolOf pid).error = (s.poolOf pid).error := by
  refine ⟨?_, ?_, ?_⟩
  · simp [rb_to_mongory_value_shallow_rec, shallowCore, rb_to_mongory_value_primitive]
  · simp [rb_to_mongory_value_deep_rec, rb_to_mongory_value_primitive]
  · cases pid <;>
      simp_all [SState.alloc, SState.poolOf, PoolState.alloc]

/-- C5 witness: the amended behavior at a concrete unsupported value on the
fresh unbounded state. -/
theorem C5_amended_witness :
    rb_to_mongory_value_shallow_rec c5xDconv initState .scratch (.vother 2 "weirder") true =
      (.mu (some (.vother 2 "weirder")) (some (.vother 2 "weirder")),
        initState.alloc .scratch) ∧
    rb_to_mongory_value_deep_rec c5xDconv 100 initState .scratch (.vother 2 "weirder") true =
      some (.mu (some (.vother 2 "weirder")) (some (.vother 2 "weirder")),
        initState.alloc .scratch) ∧
    ((initState.alloc .scratch).poolOf .scratch).error = (initState.poolOf .scratch).error :=
  C5_amended c5xDconv initState .scratch 2 "weirder" 99 rfl rfl

/-- C7: the claim states that a `get` on a key absent in both flavors returns
a **native null value**.  Evaluating the lazy table `get` on the empty host
hash shows it returns `NULL` (no value at all, `none` here) — the distinct
no-value signal of the native table-get interface, not a constructed
`MONGORY_TYPE_NULL` value. -/
theorem C7_counterexample :
    (rb_mongory_table_get id initState .scratch [] "age").1 = none ∧
    (rb_mongory_table_get id initState .scratch [] "age").1 ≠ some (.mnull none) := by
  refine ⟨rfl, ?_⟩
  intro hcon
  rw [show (rb_mongory_table_get id initState .scratch [] "age").1 = none from rfl] at hcon
  exact Option.noConfusion hcon

/-- C7 (amended): for every key absent from the underlying host table under
both the plain-string and the symbol flavor, the lazy `get` returns `NULL`
(no value, modelled `none`) — not an error, and not a constructed native
null value; the engine then treats the `NULL` return as the absent key. -/
theorem C7_amended (dconv : RubyValue → RubyValue) (s : SState) (pid : PoolId)
    (h : List (RubyValue × RubyValue)) (key : String) (hwf : CacheWF s)
    (hs : rb_hash_lookup2 h (.vstr 0 key) = none)
    (hy : rb_hash_lookup2 h (.vsym key) = none) :
    (rb_mongory_table_get dconv s pid h key).1 = none := by
  obtain ⟨i, hi⟩ := cache_fetch_string_shape s key hwf
  have hwf2 := cache_fetch_string_wf s key hwf
  have hsym := cache_fetch_symbol_shape (cache_fetch_string s key).2 key hwf2
  simp only [rb_mongory_table_get]
  rw [hi, rb_hash_lookup2_vstr_id h i 0 key, hs, hsym, hy]

/-- C7 witness: the amended behavior at a concrete miss (a host hash keyed
only with `"other"`, probed for `"age"`). -/
theorem C7_amended_witness :
    (rb_mongory_table_get id initState .scratch [(.vstr 7 "other", .vint 1)] "age").1
      = none :=
  C7_amended id initState .scratch [(.vstr 7 "other", .vint 1)] "age"
    initState_cacheWF rfl rfl

/-- C6 (confirmed): the lazy table `get` resolves a raw-bytes key in both key
flavors, plain-string flavor first: if the host hash has a string-flavored
key with those bytes, `get` returns the shallow conversion of its value;
if the string flavor is absent but the symbol flavor is present (a host
table keyed entirely with symbols), `get` still resolves via the symbol
fallback — and symmetrically a string-keyed table resolves on the first
probe. -/
theorem C6_theorem (dconv : RubyValue → RubyValue) (s : SState) (pid : PoolId)
    (h : List (RubyValue × RubyValue)) (key : String) (hwf : CacheWF s) :
    (∀ v, rb_hash_lookup2 h (.vstr 0 key) = some v →
        rb_mongory_table_get dconv s pid h key =
          (some (rb_to_mongory_value_shallow dconv
              (cache_fetch_string s key).2 pid v).1,
           (rb_to_mongory_value_shallow dconv
              (cache_fetch_string s key).2 pid v).2)) ∧
    (rb_hash_lookup2 h (.vstr 0 key) = none →
      ∀ v, rb_hash_lookup2 h (.vsym key) = some v →
        rb_mongory_table_get dconv s pid h key =
          (some (rb_to_mongory_value_shallow dconv
              (cache_fetch_symbol (cache_fetch_string s key).2 key).2 pid v).1,
           (rb_to_mongory_value_shallow dconv
              (cache_fetch_symbol (cache_fetch_string s key).2 key).2 pid v).2)) := by
  obtain ⟨i, hi⟩ := cache_fetch_string_shape s key hwf
  have hwf2 := cache_fetch_string_wf s key hwf
  have hsym := cache_fetch_symbol_shape (cache_fetch_string s key).2 key hwf2
  constructor
  · intro v hv
    simp only [rb_mongory_table_get]
    rw [hi, rb_hash_lookup2_vstr_id h i 0 key, hv]
  · intro hnone v hv
    simp only [rb_mongory_table_get]
    rw [hi, rb_hash_lookup2_vstr_id h i 0 key, hnone, hsym, hv]

/-- C6 witness: a string-keyed host hash resolves on the first probe, and a
symbol-keyed host hash resolves through the symbol fallback, for the same
logical key `"age"`. -/
theorem C6_witness :
    (rb_mongory_table_get id initState .scratch [(.vstr 7 "age", .vint 21)] "age" =
      (some (rb_to_mongory_value_shallow id
          (cache_fetch_string initState "age").2 .scratch (.vint 21)).1,
       (rb_to_mongory_value_shallow id
          (cache_fetch_string initState "age").2 .scratch (.vint 21)).2)) ∧
    (rb_mongory_table_get id initState .scratch [(.vsym "age", .vint 21)] "age" =
      (some (rb_to_mongory_value_shallow id
          (cache_fetch_symbol (cache_fetch_string initState "age").2 "age").2
          .scratch (.vint 21)).1,
       (rb_to_mongory_value_shallow id
          (cache_fetch_symbol (cache_fetch_string initState "age").2 "age").2
          .scratch (.vint 21)).2)) :=
  ⟨(C6_theorem id initState .scratch [(.vstr 7 "age", .vint 21)] "age"
      initState_cacheWF).1 (.vint 21) rfl,
   (C6_theorem id initState .scratch [(.vsym "age", .vint 21)] "age"
      initState_cacheWF).2 rfl (.vint 21) rfl⟩

/-- C3: the claim states the scratch pool is reset after `match` regardless of
outcome.  On a wrapper whose scratch pool has zero capacity, the shallow
conversion of the data sets the scratch pool's error slot; the error check
then raises and control returns to the caller with the scratch pool's reset
counter still 0 — the `scratch_pool->reset(scratch_pool)` at the end of the
C function is after the `rb_raise` and never runs on this path. -/
theorem C3_counterexample :
    rb_mongory_matcher_match id (fun _ _ => true) c3xWrapper (.vint 1) =
      .raised "Match failed: allocation failed"
        { used := 0, capacity := some 0, error := some "allocation failed",
          resets := 0, freed := false } none ∧
    c3xWrapper.st.scratch.resets = 0 :=
  ⟨rfl, rfl⟩

/-- C3 (amended): the scratch pool is reset exactly on the non-error outcome:
when `match` completes with a boolean the scratch pool's reset counter has
increased by one, but when a pending conversion error is found after
shallow conversion, the exception is raised first and control returns with
the scratch pool not reset (reset counter unchanged, error slot still
set). -/
theorem C3_amended (dconv : RubyValue → RubyValue) (evalFn : MValue → MValue → Bool)
    (w : Wrapper) (data : RubyValue) :
    (∀ b p t, rb_mongory_matcher_match dconv evalFn w data = .ok b p t →
        p.resets = w.st.scratch.resets + 1) ∧
    (∀ msg p t, rb_mongory_matcher_match dconv evalFn w data = .raised msg p t →
        p.resets = w.st.scratch.resets ∧ p.error ≠ none) := by
  constructor
  · intro b p t h
    simp only [rb_mongory_matcher_match] at h
    split at h
    · exact absurd h (by simp)
    · obtain ⟨_, h2, _⟩ := MatchOutcome.ok.injEq .. ▸ h
      rw [← h2]
      show ((rb_to_mongory_value_shallow dconv w.st .scratch data).2.scratch.reset).resets
        = w.st.scratch.resets + 1
      simp only [PoolState.reset]
      rw [rb_to_mongory_value_shallow, shallow_rec_scratch_resets]
  · intro msg p t h
    simp only [rb_mongory_matcher_match] at h
    split at h
    · rename_i msg' pe herr
      obtain ⟨_, h2, _⟩ := MatchOutcome.raised.injEq .. ▸ h
      obtain ⟨hpe, hne⟩ := error_handling_error _ _ _ _ herr
      constructor
      · rw [← h2, hpe]
        rw [rb_to_mongory_value_shallow, shallow_rec_scratch_resets]
      · rw [← h2, hpe]
        exact hne
    · exact absurd h (by simp)

/-- C3 witness: the amended behavior at concrete inputs — a successful match
on an unbounded scratch pool increments the reset counter to 1, and the
failing match on the zero-capacity scratch pool leaves it at 0 with the
error slot set. -/
theorem C3_amended_witness :
    (({ used := 0, capacity := none, error := none, resets := 1, freed := false }
        : PoolState).resets = c3wWrapper.st.scratch.resets + 1) ∧
    (({ used := 0, capacity := some 0, error := some "allocation failed",
        resets := 0, freed := false } : PoolState).resets
          = c3xWrapper.st.scratch.resets ∧
     ({ used := 0, capacity := some 0, error := some "allocation failed",
        resets := 0, freed := false } : PoolState).error ≠ none) :=
  ⟨(C3_amended id (fun _ _ => true) c3wWrapper (.vint 1)).1 true _ none rfl,
   (C3_amended id (fun _ _ => true) c3xWrapper (.vint 1)).2
     "Match failed: allocation failed" _ none rfl⟩

/-- C1: the claim states `condition(matcher)` returns the original host
condition value passed to `create`.  With a condition converter hook that
rewrites the condition (here: into the fresh string `"conv"`),
`condition(matcher)` returns the **converted** value, not the original
`"orig"`: `wrapper->condition->origin` is set by deep conversion to the
converter's output. -/
theorem C1_counterexample :
    rb_mongory_matcher_condition (wrapperOf c1xCreate) = some (.vstr 5 "conv") ∧
    rb_mongory_matcher_condition (wrapperOf c1xCreate) ≠ some (.vstr 1 "orig") := by
  constructor
  · rfl
  · intro hcon
    rw [show rb_mongory_matcher_condition (wrapperOf c1xCreate)
          = some (.vstr 5 "conv") from rfl] at hcon
    simp at hcon

/-- C1 (amended): for every matcher successfully created by
`create(condition[, context])`, `condition(matcher)` returns the output of
the condition converter hook applied to the raw condition — the original
host condition value exactly when the hook returns its input unchanged. -/
theorem C1_amended (dconv cconv : RubyValue → RubyValue) (fuel : Nat)
    (capMain capScratch : Option Nat) (builder : MValue → Option String)
    (fid : Nat) (cond : RubyValue) (ctxArg : Option RubyValue) (w : Wrapper)
    (h : rb_mongory_matcher_new dconv cconv fuel capMain capScratch builder fid
          cond ctxArg = .ok w) :
    rb_mongory_matcher_condition w = some (cconv cond) := by
  simp only [rb_mongory_matcher_new] at h
  split at h
  · exact absurd h (by simp)
  · rename_i cval ctx s1 hparse
    split at h
    · exact absurd h (by simp)
    · have hw := CreateResult.ok.inj h
      rw [← hw]
      show cval.origin = some (cconv cond)
      exact parse_argv_condition_origin dconv cconv fuel _ cond ctxArg cval ctx s1 hparse

/-- C1 witness: with an identity condition converter the round-trip does
hold — `condition(matcher)` returns the original condition. -/
theorem C1_amended_witness :
    rb_mongory_matcher_condition (wrapperOf c1wCreate) = some (.vstr 1 "orig") :=
  C1_amended id id 100 none none (fun _ => none) 50 (.vstr 1 "orig")
    (some (.vother 40 "ctx")) (wrapperOf c1wCreate) rfl

/-- C2: the claim states every host key object recorded during deep table
conversion is reachable from the Root Retention List after `create`.  When
the data converter hook rewrites a condition leaf into a freshly allocated
host hash (id 10, with string key id 11), the key object id 11 **is**
recorded in the owner's string map, but the deep conversion pushes only the
top-level condition onto the mark list and overwrites the nested value's
`origin` with the original leaf — so id 11 is unreachable from the mark
list and a GC pass immediately after `create` collects it. -/
theorem C2_counterexample :
    11 ∈ recordedKeyIds (wrapperOf c2xCreate).st ∧
    11 ∉ reachableIds (wrapperOf c2xCreate).st := by
  constructor
  · rw [show recordedKeyIds (wrapperOf c2xCreate).st = [2, 11] from rfl]
    decide
  · rw [show reachableIds (wrapperOf c2xCreate).st = [1, 2, 3, 40] from rfl]
    decide

/-- C2 (amended): when the data converter hook is never invoked during the
condition's deep conversion (the converted condition contains no
natively-unsupported node), every host key object recorded in the key maps
during `create` is reachable from the Root Retention List the GC marking
pass walks — the keys live inside the converted condition's object graph,
whose root is on the mark list — so a GC pass immediately after `create`
collects none of them. -/
theorem recorded_key_ids_bounded (dconv : RubyValue → RubyValue) (fuel : Nat)
    (s' : SState) (cv : RubyValue) (mv : MValue) (s1 : SState)
    (hsm : s'.stringMap = []) (hym : s'.symbolMap = [])
    (hno : cv.noOther = true)
    (hdeep : rb_to_mongory_value_deep dconv fuel s' .main cv = some (mv, s1)) :
    (∀ o ∈ recordedKeyOrigins s1, ∀ i, o.selfId = some i → i ∈ cv.ids) ∧
    s1.markList = s'.markList := by
  obtain ⟨hstr, hsymb, hml⟩ :=
    deep_rec_maps dconv fuel s' .main cv false mv s1 hno hdeep
  refine ⟨?_, hml⟩
  intro o ho i hi
  simp only [recordedKeyOrigins, List.mem_filterMap, List.mem_append,
    List.mem_map] at ho
  obtain ⟨st, hstmem, horig⟩ := ho
  rcases hstmem with ⟨e, he, hesnd⟩ | ⟨e, he, hesnd⟩
  · rcases hstr e he with habs | ⟨o', ho', hids⟩
    · rw [hsm] at habs
      exact absurd habs (List.not_mem_nil _)
    · rw [hesnd, horig] at ho'
      have hoo : o = o' := Option.some.inj ho'
      exact hids i (hoo ▸ RubyValue.selfId_mem_ids o i hi)
  · rcases hsymb e he with habs | ⟨o', ho', hids⟩
    · rw [hym] at habs
      exact absurd habs (List.not_mem_nil _)
    · rw [hesnd, horig] at ho'
      have hoo : o = o' := Option.some.inj ho'
      exact hids i (hoo ▸ RubyValue.selfId_mem_ids o i hi)

theorem recordedKeyIds_subset_reachable (ws : SState) (cv ctxv : RubyValue)
    (hcore : ∀ o ∈ recordedKeyOrigins ws, ∀ i, o.selfId = some i → i ∈ cv.ids)
    (hmk : markedRoots ws = [cv, ctxv]) :
    ∀ i ∈ recordedKeyIds ws, i ∈ reachableIds ws := by
  intro i hi
  simp only [recordedKeyIds, List.mem_filterMap] at hi
  obtain ⟨o, ho, hoid⟩ := hi
  have hbound := hcore o ho i hoid
  simp only [reachableIds, hmk, List.map_cons, List.map_nil, List.flatten_cons,
    List.flatten_nil]
  exact List.mem_append_left _ hbound

theorem C2_amended (dconv cconv : RubyValue → RubyValue) (fuel : Nat)
    (capMain capScratch : Option Nat) (builder : MValue → Option String)
    (fid : Nat) (cond : RubyValue) (ctxArg : Option RubyValue) (w : Wrapper)
    (hno : (cconv cond).noOther = true)
    (h : rb_mongory_matcher_new dconv cconv fuel capMain capScratch builder fid
          cond ctxArg = .ok w) :
    ∀ i ∈ recordedKeyIds w.st, i ∈ reachableIds w.st := by
  simp only [rb_mongory_matcher_new] at h
  split at h
  · exact absurd h (by simp)
  · rename_i cval ctx s1 hparse
    split at h
    · exact absurd h (by simp)
    · have hw := CreateResult.ok.inj h
      cases ctxArg with
      | some c =>
        simp only [rb_mongory_matcher_parse_argv] at hparse
        split at hparse
        · exact absurd hparse (by simp)
        · rename_i mv s1' hdeep
          obtain ⟨hcore, hml⟩ :=
            recorded_key_ids_bounded dconv fuel _ (cconv cond) mv s1' rfl rfl hno hdeep
          have horigin := deep_rec_origin dconv fuel _ .main (cconv cond) false mv s1' hdeep
          have hinj := Option.some.inj hparse
          obtain ⟨hmv, hrest⟩ := Prod.mk.injEq .. ▸ hinj
          obtain ⟨hctxv, hs1⟩ := Prod.mk.injEq .. ▸ hrest
          subst hmv
          subst hctxv
          subst hs1
          subst hw
          cases hb : builder mv <;> simp only [hb]
          all_goals {
            refine recordedKeyIds_subset_reachable _ (cconv cond) c
              (fun o ho i hoid => hcore o ho i hoid) ?_
            simp [markedRoots, SState.alloc, hml, horigin, MValue.origin_mu,
              List.filterMap_cons, List.filterMap_nil]
          }
      | none =>
        simp only [rb_mongory_matcher_parse_argv] at hparse
        split at hparse
        · exact absurd hparse (by simp)
        · rename_i mv s1' hdeep
          obtain ⟨hcore, hml⟩ :=
            recorded_key_ids_bounded dconv fuel _ (cconv cond) mv s1' rfl rfl hno hdeep
          have horigin := deep_rec_origin dconv fuel _ .main (cconv cond) false mv s1' hdeep
          have hinj := Option.some.inj hparse
          obtain ⟨hmv, hrest⟩ := Prod.mk.injEq .. ▸ hinj
          obtain ⟨hctxv, hs1⟩ := Prod.mk.injEq .. ▸ hrest
          subst hmv
          subst hctxv
          subst hs1
          subst hw
          cases hb : builder mv <;> simp only [hb]
          all_goals {
            refine recordedKeyIds_subset_reachable _ (cconv cond)
              (.vother fid "Mongory::Utils::Context")
              (fun o ho i hoid => hcore o ho i hoid) ?_
            simp [markedRoots, SState.alloc, hml, horigin, MValue.origin_mu,
              List.filterMap_cons, List.filterMap_nil]
          }

/-- C2 witness: for the converter-free condition `{"a" => 7}` the recorded key
object (the host string id 2) is reachable from the Root Retention List
after `create`. -/
theorem C2_amended_witness : 2 ∈ reachableIds (wrapperOf c2wCreate).st :=
  C2_amended id id 100 none none (fun _ => none) 50
    (.vhash 1 [(.vstr 2 "a", .vint 7)]) (some (.vother 40 "ctx"))
    (wrapperOf c2wCreate) rfl rfl 2
    (by rw [show recordedKeyIds (wrapperOf c2wCreate).st = [2] from rfl]; decide)

end MongoryExt
